import Mathlib

/-
Verification development for the Micromegas raw-data evaluation module
(MicromegasRawDataEvaluation.cc): the BCO correlation engine, the
per-channel peak extraction, and the aggregation data model.

Machine integers (uint16/uint32/uint64 counters, indices, ADC values) are
embedded as natural numbers: every operation performed by the code on them
(comparison, subtraction of the smaller from the larger, masking) stays
within range, so no modular reduction is observable.  Floating point
calibration values (pedestal, rms, n_sigma) are embedded as rationals.
-/

namespace MicromegasEval

/-- Embeds `get_bco_diff` (anonymous namespace of the source): the unsigned
absolute difference of two BCO counters, with no wraparound handling. -/
def get_bco_diff (first second : ℕ) : ℕ :=
  if first < second then second - first else first - second

/-- Embeds the constant `max_fee_bco_diff` from `process_event`: the FEE
clock matching tolerance, fixed at 10. -/
def max_fee_bco_diff : ℕ := 10

/-- The per-FEE cached match pair stored in `m_fee_bco_matching_map`:
`first` is the last matched fee BCO, `second` the last matched lvl1 BCO.
The C++ value type is `std::pair<unsigned int, uint64_t>`, value
initialized to `(0, 0)` by `operator[]`. -/
structure MatchPair where
  first : ℕ
  second : ℕ
deriving Repr, DecidableEq

instance : Inhabited MatchPair := ⟨⟨0, 0⟩⟩

/-- The per-FEE matching step of `process_event` (lines 242-293), viewed for
a single FEE whose candidate queue has already been materialized: given the
cached pair and the FEE's candidate bco list, an incoming `fee_bco` either
reuses the cached lvl1 BCO (difference below tolerance), pops the front of
the queue (updating the cache), or is left unmatched with the sentinel
lvl1 BCO 0 (the value `sample.lvl1_bco` was initialized to).  Returns the
assigned lvl1 BCO, the new cached pair, and the remaining queue. -/
def matchOne (pair : MatchPair) (queue : List ℕ) (fee_bco : ℕ) :
    ℕ × MatchPair × List ℕ :=
  if get_bco_diff fee_bco pair.first < max_fee_bco_diff then
    (pair.second, pair, queue)
  else
    match queue with
    | [] => (0, pair, queue)
    | b :: rest => (b, ⟨fee_bco, b⟩, rest)

/-- Iterates `matchOne` over a stream of incoming fee BCOs for one FEE,
collecting the assigned lvl1 BCOs in order. -/
def matchAll (pair : MatchPair) (queue : List ℕ) :
    List ℕ → List ℕ × MatchPair × List ℕ
  | [] => ([], pair, queue)
  | f :: fs =>
    let r := matchOne pair queue f
    let t := matchAll r.2.1 r.2.2 fs
    (r.1 :: t.1, t.2.1, t.2.2)

/-- Decides that every call in a stream of incoming fee BCOs falls outside
the tolerance of the cached pair current at the time of the call. -/
def outOfTolTrace (pair : MatchPair) (queue : List ℕ) : List ℕ → Bool
  | [] => true
  | f :: fs =>
    decide (max_fee_bco_diff ≤ get_bco_diff f pair.first) &&
      outOfTolTrace (matchOne pair queue f).2.1 (matchOne pair queue f).2.2 fs

/-- The Sample record. Modelled from the spec: the struct itself is declared
in the header MicromegasRawDataEvaluation.h (not part of the sources at
hand); the spec's data model section lists its fields, created with zero
defaults ("defaulted to zero" / "zero-initialized"). `sample` is the sample
index within the waveform, `adc` the amplitude.  The fields filled by the
external mapping and calibration services (layer, tile, strip, pedestal,
rms) are carried but play no role in the correlation logic. -/
structure Sample where
  packet_id : ℕ := 0
  fee_id : ℕ := 0
  layer : ℕ := 0
  tile : ℕ := 0
  channel : ℕ := 0
  strip : ℕ := 0
  sampa_address : ℕ := 0
  sampa_channel : ℕ := 0
  fee_bco : ℕ := 0
  lvl1_bco : ℕ := 0
  lvl1_bco_masked : ℕ := 0
  checksum : ℕ := 0
  checksum_error : Bool := false
  sample : ℕ := 0
  adc : ℕ := 0
  pedestal : ℚ := 0
  rms : ℚ := 0
deriving Repr, DecidableEq

instance : Inhabited Sample := ⟨{}⟩

/-- The Waveform record: the reduced projection of the peak Sample plus the
signal flag.  Modelled from the spec for the field list (the struct lives in
the missing header); the field-by-field copy below is `Waveform::copy_from`
from the source. -/
structure Waveform where
  packet_id : ℕ := 0
  lvl1_bco : ℕ := 0
  fee_bco : ℕ := 0
  checksum : ℕ := 0
  checksum_error : Bool := false
  fee_id : ℕ := 0
  layer : ℕ := 0
  tile : ℕ := 0
  sampa_address : ℕ := 0
  sampa_channel : ℕ := 0
  channel : ℕ := 0
  strip : ℕ := 0
  sample_max : ℕ := 0
  adc_max : ℕ := 0
  pedestal : ℚ := 0
  rms : ℚ := 0
  is_signal : Bool := false
deriving Repr, DecidableEq

/-- Embeds `MicromegasRawDataEvaluation::Waveform::copy_from` (source lines
65-83): copies the peak sample's fields into the waveform record. -/
def Waveform.copy_from (s : Sample) : Waveform :=
  { packet_id := s.packet_id
    lvl1_bco := s.lvl1_bco
    fee_bco := s.fee_bco
    checksum := s.checksum
    checksum_error := s.checksum_error
    fee_id := s.fee_id
    layer := s.layer
    tile := s.tile
    sampa_address := s.sampa_address
    sampa_channel := s.sampa_channel
    channel := s.channel
    strip := s.strip
    sample_max := s.sample
    adc_max := s.adc
    pedestal := s.pedestal
    rms := s.rms }

/-- Embeds the sample scan loop of `process_event` (source lines 331-348):
walks the ADC array with running index `is` and running maximum `smax`
(started from the zero-initialized `sample_max`), skipping entries equal to
the invalid-ADC sentinel; each accepted entry yields a Sample record (the
copies emplaced into the sample map) and updates the running maximum when
its ADC is strictly larger. -/
def scanSamplesAux (base : Sample) (adc_invalid : ℕ) :
    List ℕ → ℕ → Sample → List Sample × Sample
  | [], _, smax => ([], smax)
  | a :: rest, is, smax =>
    if a = adc_invalid then scanSamplesAux base adc_invalid rest (is + 1) smax
    else
      let s : Sample := { base with sample := is, adc := a }
      let r := scanSamplesAux base adc_invalid rest (is + 1)
        (if a > smax.adc then s else smax)
      (s :: r.1, r.2)

/-- The scan over at most 1024 samples (`std::min(samples, 1024)` in the
source), from index 0 and the default running maximum. -/
def scanSamples (base : Sample) (adc_invalid : ℕ) (adcs : List ℕ) :
    List Sample × Sample :=
  scanSamplesAux base adc_invalid (adcs.take 1024) 0 {}

/-- Picks the entry with the strictly larger ADC, keeping the earlier entry
on ties (entries are (index, adc) pairs). -/
def peakStep (best p : ℕ × ℕ) : ℕ × ℕ := if p.2 > best.2 then p else best

/-- The step of the running-maximum fold performed by the scan loop, on
Sample records. -/
def sampleStep (base : Sample) (best : Sample) (p : ℕ × ℕ) : Sample :=
  if p.2 > best.adc then { base with sample := p.1, adc := p.2 } else best

/-- Follows the spec's words for the peak-extraction contract, for
comparison with the scan: the Sample with maximum ADC (first occurrence on
ties) over all non-sentinel entries of the (at most 1024) scanned entries,
or a zero-initialized Sample if every entry is sentinel. -/
def specPeak (base : Sample) (adc_invalid : ℕ) (adcs : List ℕ) : Sample :=
  let valid := ((adcs.take 1024).enum).filter (fun p => p.2 != adc_invalid)
  match valid with
  | [] => {}
  | h :: t =>
    let best := t.foldl peakStep h
    { base with sample := best.1, adc := best.2 }

/-- The amended peak-extraction contract: the maximum is taken over the
non-sentinel entries with strictly positive ADC (the scan's running maximum
starts from the zero-initialized Sample, so zero-ADC entries can never be
selected), and the zero-initialized Sample is produced when no such entry
exists. -/
def specPeakPos (base : Sample) (adc_invalid : ℕ) (adcs : List ℕ) : Sample :=
  let valid := ((adcs.take 1024).enum).filter
    (fun p => p.2 != adc_invalid && p.2 != 0)
  match valid with
  | [] => {}
  | h :: t =>
    let best := t.foldl peakStep h
    { base with sample := best.1, adc := best.2 }

/-- Embeds the waveform classification of `process_event` (source lines
350-362): builds the Waveform from the peak Sample and sets `is_signal`.
The thresholds `m_min_adc`, `m_sample_min`, `m_sample_max`, `m_n_sigma` are
configuration members declared in the header; they are taken here as
parameters, and `pedestal`/`rms` are the calibration values fetched for the
channel. -/
def classifyWaveform (min_adc sample_min sample_max_thr : ℕ)
    (n_sigma pedestal rms : ℚ) (sample_max : Sample) : Waveform :=
  let w := Waveform.copy_from sample_max
  { w with is_signal :=
      decide (rms > 0) &&
      decide (w.adc_max ≥ min_adc) &&
      decide (w.sample_max ≥ sample_min) &&
      decide (w.sample_max < sample_max_thr) &&
      decide ((w.adc_max : ℚ) > pedestal + n_sigma * rms) }

/-- Embeds the insertion discipline of `std::multimap<uint64_t, _>::emplace`
used for `sample_map` and `waveform_map` (source lines 134-136, 342, 361):
a new entry is placed immediately before the first entry with a strictly
larger key, i.e. after every entry with a key less than or equal to its
own. -/
def mmInsert {α : Type} : List (ℕ × α) → ℕ → α → List (ℕ × α)
  | [], k, v => [(k, v)]
  | p :: rest, k, v =>
    if k < p.1 then (k, v) :: p :: rest else p :: mmInsert rest k v

/-- The multimap built by emplacing a sequence of keyed records in order,
then traversed front to back by the copy loops (source lines 367-386). -/
def mmOfList {α : Type} (entries : List (ℕ × α)) : List (ℕ × α) :=
  entries.foldl (fun m e => mmInsert m e.1 e.2) []

/-- The keys of the multimap are in ascending order. -/
def mmSorted {α : Type} (l : List (ℕ × α)) : Prop :=
  l.Pairwise (fun a b => a.1 ≤ b.1)

/-- Association-list lookup, the observable content of `std::map::find` /
`lower_bound` probing used for the per-FEE maps. -/
def lookupA {α : Type} : List (ℕ × α) → ℕ → Option α
  | [], _ => none
  | p :: rest, k => if p.1 = k then some p.2 else lookupA rest k

/-- Association-list update-or-insert, the observable content of writing
through `std::map::operator[]` / `insert`. -/
def setA {α : Type} : List (ℕ × α) → ℕ → α → List (ℕ × α)
  | [], k, v => [(k, v)]
  | p :: rest, k, v => if p.1 = k then (k, v) :: rest else p :: setA rest k v

/-- Embeds `++m_bco_map[bco]` (source line 300): bumps the count stored for
a key, starting an absent key at 1 (value initialization plus increment). -/
def incrCount : List (ℕ × ℕ) → ℕ → List (ℕ × ℕ)
  | [], k => [(k, 1)]
  | p :: rest, k =>
    if p.1 = k then (p.1, p.2 + 1) :: rest else p :: incrCount rest k

/-- Total number of increments recorded in the BCO histogram. -/
def histTotal (m : List (ℕ × ℕ)) : ℕ := (m.map (fun p => p.2)).sum

/-- Embeds `orphans.insert(std::make_pair(fee_id, fee_bco)).second` (source
line 284, the diagnostic branch): inserts the pair into the orphan set and
reports whether it was seen for the first time. -/
def reportOrphan (s : List (ℕ × ℕ)) (p : ℕ × ℕ) : Bool × List (ℕ × ℕ) :=
  if p ∈ s then (false, s) else (true, p :: s)

/-- Modelled from the spec: `MicromegasDefs::m_adc_invalid`, the reserved
sentinel ADC value denoting "no data" (declared in MicromegasDefs.h, which
is not among the sources at hand).  Its concrete value is immaterial to the
claims, which treat it only as the value to be skipped. -/
def adc_invalid : ℕ := 65535

/-- One waveform row as supplied by the external decoder: fee id, channel,
local BCO and the ADC sample array.  Checksum, SAMPA address and the other
pass-through fields play no role in the claims and are omitted from the
row (they are copied verbatim into the Sample). -/
structure WaveformRow where
  fee_id : ℕ := 0
  channel : ℕ := 0
  fee_bco : ℕ := 0
  adcs : List ℕ := []
deriving Repr, DecidableEq

/-- One packet's decoded content relevant to the engine: the lvl1-tagged
BCO list collected from the taggers (main_bco_list, source lines 156-180)
and the waveform table. -/
structure PacketData where
  packet_id : ℕ := 0
  lvl1_bcos : List ℕ := []
  waveforms : List WaveformRow := []
deriving Repr, DecidableEq

/-- The state threaded through the waveform loop of one packet:
`fee_map` is the persistent `m_fee_bco_matching_map`; `bco_list_map` and
`orphans` are the per-packet locals of source lines 206-210; `bco_map` is
the run-level histogram; `samples` collects the keyed records emplaced into
the event's sample multimap, in emission order; `reportLog` records the
orphan-report results, in order, for the diagnostics. -/
structure PacketState where
  fee_map : List (ℕ × MatchPair)
  bco_list_map : List (ℕ × List ℕ)
  orphans : List (ℕ × ℕ)
  bco_map : List (ℕ × ℕ)
  samples : List (ℕ × Sample)
  reportLog : List Bool
deriving Repr, DecidableEq

/-- The Sample fields filled before the sample loop (source lines 214-311):
packet, fee, channel, fee BCO, the matched lvl1 BCO and its low 20 bits.
The fields resolved by the external mapping and calibration collaborators
(layer, tile, strip, pedestal, rms) are left at their defaults here; they
are opaque pass-through data for the correlation engine. -/
def mkBase (packet_id : ℕ) (w : WaveformRow) (lvl1 : ℕ) : Sample :=
  { packet_id := packet_id, fee_id := w.fee_id, channel := w.channel,
    fee_bco := w.fee_bco, lvl1_bco := lvl1, lvl1_bco_masked := lvl1 % 1048576 }

/-- Embeds the per-waveform body of `process_event` (source lines 212-363)
on the sample/waveform evaluation path: channel bound check, lvl1 BCO
matching against the per-FEE cached pair with lazy per-FEE candidate-list
initialization from the packet's main list, orphan reporting, histogram
increment, and the sample scan.  `m_fee_bco_matching_map[fee_id]`
value-initializes an absent entry to (0, 0); since the in-tolerance branch
never writes the entry, reading through `getD` with that default is
observationally identical to `operator[]`. -/
def processWaveform (nchannels packet_id : ℕ) (mainList : List ℕ)
    (st : PacketState) (w : WaveformRow) : PacketState :=
  if nchannels ≤ w.channel then st
  else
    let pair := (lookupA st.fee_map w.fee_id).getD ⟨0, 0⟩
    if get_bco_diff w.fee_bco pair.first < max_fee_bco_diff then
      { st with
        bco_map := incrCount st.bco_map pair.second,
        samples := st.samples ++
          (scanSamples (mkBase packet_id w pair.second) adc_invalid
            w.adcs).1.map (fun s => (pair.second, s)) }
    else
      match (lookupA st.bco_list_map w.fee_id).getD mainList with
      | [] =>
        let rep := reportOrphan st.orphans (w.fee_id, w.fee_bco)
        { st with
          bco_list_map := setA st.bco_list_map w.fee_id [],
          orphans := rep.2,
          reportLog := st.reportLog ++ [rep.1],
          bco_map := incrCount st.bco_map 0,
          samples := st.samples ++
            (scanSamples (mkBase packet_id w 0) adc_invalid w.adcs).1.map
              (fun s => (0, s)) }
      | b :: rest =>
        { st with
          fee_map := setA st.fee_map w.fee_id ⟨w.fee_bco, b⟩,
          bco_list_map := setA st.bco_list_map w.fee_id rest,
          bco_map := incrCount st.bco_map b,
          samples := st.samples ++
            (scanSamples (mkBase packet_id w b) adc_invalid w.adcs).1.map
              (fun s => (b, s)) }

/-- The state that persists across packets and events: the per-FEE cached
match pairs and the run-level BCO histogram (both members of the module,
initialized only at construction). -/
structure EngineState where
  fee_map : List (ℕ × MatchPair)
  bco_map : List (ℕ × ℕ)
deriving Repr, DecidableEq

/-- Embeds one packet's processing: the per-packet `bco_list_map` and
orphan set are created fresh (source lines 206-210), the per-FEE matching
map and the run-level histogram persist; event-scoped sample entries and
the diagnostic report results are threaded through. -/
def processPacket (nchannels : ℕ)
    (acc : EngineState × List (ℕ × Sample) × List Bool) (pkt : PacketData) :
    EngineState × List (ℕ × Sample) × List Bool :=
  let st0 : PacketState :=
    { fee_map := acc.1.fee_map, bco_list_map := [], orphans := [],
      bco_map := acc.1.bco_map, samples := acc.2.1, reportLog := acc.2.2 }
  let st := pkt.waveforms.foldl
    (processWaveform nchannels pkt.packet_id pkt.lvl1_bcos) st0
  (⟨st.fee_map, st.bco_map⟩, st.samples, st.reportLog)

/-- Embeds `process_event`: event-scoped storage starts empty, each
configured packet is processed in turn; `mmOfList` of the returned keyed
sample entries is the event's sample multimap. -/
def processEvent (nchannels : ℕ) (engine : EngineState)
    (pkts : List PacketData) :
    EngineState × List (ℕ × Sample) × List Bool :=
  pkts.foldl (processPacket nchannels) (engine, [], [])

/-- A run: a sequence of events processed against the persistent engine
state. -/
def processRun (nchannels : ℕ) (engine : EngineState)
    (events : List (List PacketData)) : EngineState :=
  events.foldl (fun e pkts => (processEvent nchannels e pkts).1) engine

/-- Number of waveform rows of an event that pass the channel bound check
(the rows that are not skipped by the `continue` of source line 230). -/
def countValidWaveforms (nchannels : ℕ) (pkts : List PacketData) : ℕ :=
  (pkts.map (fun pkt =>
    (pkt.waveforms.filter (fun w => decide (w.channel < nchannels))).length)).sum

/-- Number of channel-valid waveform rows across a run. -/
def countValidWaveformsRun (nchannels : ℕ)
    (events : List (List PacketData)) : ℕ :=
  (events.map (countValidWaveforms nchannels)).sum

/-- Claim C1: with tolerance 10, a single FEE starting from the default
cached MatchState and candidate queue [1000, 2000, 3000], the incoming
local timestamps 55, 56, 57, 200, 201 are assigned the global timestamps
1000, 1000, 1000, 2000, 2000 in order, and the queue is left as [3000];
the second conjunct re-runs the same scenario through the full per-waveform
body (five waveform rows of FEE 5, one valid ADC each), checking the
assigned sample keys, the remaining per-FEE candidate list, and the final
cached pair. -/
theorem C1_end_to_end_correlation :
    matchAll ⟨0, 0⟩ [1000, 2000, 3000] [55, 56, 57, 200, 201] =
      ([1000, 1000, 1000, 2000, 2000], ⟨200, 2000⟩, [3000]) ∧
      ((([⟨5, 0, 55, [42]⟩, ⟨5, 0, 56, [42]⟩, ⟨5, 0, 57, [42]⟩,
          ⟨5, 0, 200, [42]⟩, ⟨5, 0, 201, [42]⟩] : List WaveformRow).foldl
          (processWaveform 256 0 [1000, 2000, 3000])
          ⟨[], [], [], [], [], []⟩).samples.map (fun p => p.1) =
        [1000, 1000, 1000, 2000, 2000] ∧
      (([⟨5, 0, 55, [42]⟩, ⟨5, 0, 56, [42]⟩, ⟨5, 0, 57, [42]⟩,
          ⟨5, 0, 200, [42]⟩, ⟨5, 0, 201, [42]⟩] : List WaveformRow).foldl
          (processWaveform 256 0 [1000, 2000, 3000])
          ⟨[], [], [], [], [], []⟩).bco_list_map = [(5, [3000])] ∧
      (([⟨5, 0, 55, [42]⟩, ⟨5, 0, 56, [42]⟩, ⟨5, 0, 57, [42]⟩,
          ⟨5, 0, 200, [42]⟩, ⟨5, 0, 201, [42]⟩] : List WaveformRow).foldl
          (processWaveform 256 0 [1000, 2000, 3000])
          ⟨[], [], [], [], [], []⟩).fee_map = [(5, ⟨200, 2000⟩)]) := by
  refine ⟨by decide, by decide, by decide, by decide⟩

/-- Claim C2: for every cached MatchState (F0, L0) and incoming fee_bco with
unsigned absolute difference |fee_bco - F0| below the tolerance 10, the
match returns L0, leaves the cached state unchanged, and consumes no
candidate queue entry. -/
theorem C2_tolerance_reuse (F0 L0 fee_bco : ℕ) (queue : List ℕ)
    (h : Nat.dist fee_bco F0 < max_fee_bco_diff) :
    matchOne ⟨F0, L0⟩ queue fee_bco = (L0, ⟨F0, L0⟩, queue) := by
  have hd : get_bco_diff fee_bco F0 = Nat.dist fee_bco F0 := by
    unfold get_bco_diff Nat.dist
    split <;> omega
  unfold matchOne
  rw [hd]
  simp [h]

/-- Claim C2 witness at F0 = 55, L0 = 1000, fee_bco = 56, queue [3000]. -/
theorem C2_tolerance_reuse_witness :
    Nat.dist 56 55 < max_fee_bco_diff ∧
      matchOne ⟨55, 1000⟩ [3000] 56 = (1000, ⟨55, 1000⟩, [3000]) :=
  ⟨by decide, C2_tolerance_reuse 55 1000 56 [3000] (by decide)⟩

theorem matchOne_queue_cases (pair : MatchPair) (queue : List ℕ) (f : ℕ) :
    (matchOne pair queue f).2.2 = queue ∨
      (matchOne pair queue f).2.2 = queue.tail := by
  unfold matchOne
  split
  · exact Or.inl rfl
  · cases queue with
    | nil => exact Or.inl rfl
    | cons b rest => exact Or.inr rfl

theorem matchAll_out_of_tol_length (fs : List ℕ) :
    ∀ pair queue, outOfTolTrace pair queue fs = true →
      (matchAll pair queue fs).2.2.length =
        queue.length - min fs.length queue.length := by
  induction fs with
  | nil => intro pair queue _; simp [matchAll]
  | cons f fs ih =>
    intro pair queue h
    unfold outOfTolTrace at h
    rw [Bool.and_eq_true, decide_eq_true_eq] at h
    obtain ⟨hout, htr⟩ := h
    have hnot : ¬ get_bco_diff f pair.first < max_fee_bco_diff := by omega
    cases queue with
    | nil =>
      have hm : matchOne pair [] f = (0, pair, []) := by
        unfold matchOne; simp [hnot]
      rw [hm] at htr
      have hlen := ih pair [] htr
      have hq : (matchAll pair [] (f :: fs)).2.2 = (matchAll pair [] fs).2.2 := by
        simp [matchAll, hm]
      rw [hq, hlen]
      simp
    | cons b rest =>
      have hm : matchOne pair (b :: rest) f = (b, ⟨f, b⟩, rest) := by
        unfold matchOne; simp [hnot]
      rw [hm] at htr
      have hlen := ih ⟨f, b⟩ rest htr
      have hq : (matchAll pair (b :: rest) (f :: fs)).2.2 =
          (matchAll ⟨f, b⟩ rest fs).2.2 := by
        simp [matchAll, hm]
      rw [hq, hlen, List.length_cons, List.length_cons]
      omega

/-- Claim C3: each match call removes at most one entry, and only from the
front, of the per-FEE candidate queue (so the queue length is monotonically
non-increasing), and after a run of N calls that each fall outside
tolerance, the queue length equals initial_length - min(N, initial_length). -/
theorem C3_queue_consumption (pair : MatchPair) (queue : List ℕ) (f : ℕ)
    (fs : List ℕ) (h : outOfTolTrace pair queue fs = true) :
    ((matchOne pair queue f).2.2 = queue ∨
        (matchOne pair queue f).2.2 = queue.tail) ∧
      (matchOne pair queue f).2.2.length ≤ queue.length ∧
      (matchAll pair queue fs).2.2.length =
        queue.length - min fs.length queue.length := by
  refine ⟨matchOne_queue_cases pair queue f, ?_, matchAll_out_of_tol_length fs pair queue h⟩
  rcases matchOne_queue_cases pair queue f with h' | h' <;> rw [h']
  cases queue with
  | nil => simp
  | cons a l => simp

/-- Claim C3 witness: cached pair (0,0), queue [1000, 2000], and three
out-of-tolerance calls 100, 300, 600 leave a queue of length
2 - min 3 2 = 0. -/
theorem C3_queue_consumption_witness :
    outOfTolTrace ⟨0, 0⟩ [1000, 2000] [100, 300, 600] = true ∧
      ((matchOne ⟨0, 0⟩ [1000, 2000] 100).2.2 = [1000, 2000] ∨
        (matchOne ⟨0, 0⟩ [1000, 2000] 100).2.2 = [2000]) ∧
      (matchOne ⟨0, 0⟩ [1000, 2000] 100).2.2.length ≤ 2 ∧
      (matchAll ⟨0, 0⟩ [1000, 2000] [100, 300, 600]).2.2.length =
        2 - min 3 2 :=
  ⟨by decide, C3_queue_consumption ⟨0, 0⟩ [1000, 2000] 100 [100, 300, 600] (by decide)⟩

theorem scanSamplesAux_peak (base : Sample) (inv : ℕ) (l : List ℕ) :
    ∀ is smax, (scanSamplesAux base inv l is smax).2 =
      ((List.enumFrom is l).filter (fun p => p.2 != inv)).foldl
        (sampleStep base) smax := by
  induction l with
  | nil => intro is smax; simp [scanSamplesAux, List.enumFrom]
  | cons a rest ih =>
    intro is smax
    by_cases ha : a = inv
    · simp [scanSamplesAux, ha, List.enumFrom, ih]
    · simp only [scanSamplesAux, if_neg ha, List.enumFrom]
      rw [ih]
      have : (((is, a) :: List.enumFrom (is + 1) rest).filter
          (fun p => p.2 != inv)) =
          (is, a) :: ((List.enumFrom (is + 1) rest).filter
            (fun p => p.2 != inv)) := by
        simp [List.filter_cons, ha]
      rw [this, List.foldl_cons]
      rfl

theorem scanSamplesAux_list (base : Sample) (inv : ℕ) (l : List ℕ) :
    ∀ is smax, (scanSamplesAux base inv l is smax).1 =
      ((List.enumFrom is l).filter (fun p => p.2 != inv)).map
        (fun p => { base with sample := p.1, adc := p.2 }) := by
  induction l with
  | nil => intro is smax; simp [scanSamplesAux, List.enumFrom]
  | cons a rest ih =>
    intro is smax
    by_cases ha : a = inv
    · simp [scanSamplesAux, ha, List.enumFrom, ih]
    · simp only [scanSamplesAux, if_neg ha, List.enumFrom]
      have : (((is, a) :: List.enumFrom (is + 1) rest).filter
          (fun p => p.2 != inv)) =
          (is, a) :: ((List.enumFrom (is + 1) rest).filter
            (fun p => p.2 != inv)) := by
        simp [List.filter_cons, ha]
      rw [this, List.map_cons, ← ih]

theorem foldl_sampleStep_drop_zeros (base : Sample) (inv : ℕ) (l : List (ℕ × ℕ)) :
    ∀ b : Sample, (l.filter (fun p => p.2 != inv)).foldl (sampleStep base) b =
      (l.filter (fun p => p.2 != inv && p.2 != 0)).foldl (sampleStep base) b := by
  induction l with
  | nil => intro b; rfl
  | cons p rest ih =>
    intro b
    by_cases hinv : p.2 = inv
    · simp [List.filter_cons, hinv, ih]
    · by_cases hz : p.2 = 0
      · have h0 : ¬ (0 : ℕ) = inv := hz ▸ hinv
        have hstep : sampleStep base b p = b := by
          unfold sampleStep
          simp [hz]
        simp [List.filter_cons, hinv, hz, h0, hstep, ih]
      · simp [List.filter_cons, hinv, hz, List.foldl_cons, ih]

theorem foldl_sampleStep_of_pair (base : Sample) (t : List (ℕ × ℕ)) :
    ∀ p : ℕ × ℕ, t.foldl (sampleStep base) { base with sample := p.1, adc := p.2 } = { base with sample := (t.foldl peakStep p).1, adc := (t.foldl peakStep p).2 } := by
  induction t with
  | nil => intro p; rfl
  | cons q rest ih =>
    intro p
    rw [List.foldl_cons, List.foldl_cons]
    have hstep : sampleStep base { base with sample := p.1, adc := p.2 } q =
        { base with sample := (peakStep p q).1, adc := (peakStep p q).2 } := by
      unfold sampleStep peakStep
      by_cases h : q.2 > p.2 <;> simp [h]
    rw [hstep, ih]

theorem foldl_sampleStep_pos (base : Sample) (inv : ℕ) (adcs : List ℕ) :
    (((adcs.take 1024).enum).filter (fun p => p.2 != inv && p.2 != 0)).foldl
        (sampleStep base) {} = specPeakPos base inv adcs := by
  unfold specPeakPos
  cases hv : ((adcs.take 1024).enum).filter (fun p => p.2 != inv && p.2 != 0) with
  | nil => rfl
  | cons h t =>
    rw [List.foldl_cons]
    have hmem : h ∈ ((adcs.take 1024).enum).filter
        (fun p => p.2 != inv && p.2 != 0) := by
      rw [hv]; exact List.mem_cons_self h t
    have hpos : h.2 ≠ 0 := by
      have := List.of_mem_filter hmem
      simp only [Bool.and_eq_true, bne_iff_ne, ne_eq] at this
      exact this.2
    have hfirst : sampleStep base {} h = { base with sample := h.1, adc := h.2 } := by
      unfold sampleStep
      have : h.2 > (({} : Sample)).adc := by
        show h.2 > 0
        omega
      simp [this]
    rw [hfirst, foldl_sampleStep_of_pair]

theorem scanSamples_peak_eq_specPeakPos (base : Sample) (inv : ℕ)
    (adcs : List ℕ) : (scanSamples base inv adcs).2 = specPeakPos base inv adcs := by
  unfold scanSamples
  rw [scanSamplesAux_peak]
  have henum : List.enumFrom 0 (adcs.take 1024) = (adcs.take 1024).enum := rfl
  rw [henum, foldl_sampleStep_drop_zeros, foldl_sampleStep_pos]

/-- Claim C5 counterexample: for the ADC array [0] (a single valid, zero
amplitude entry) and a base sample with fee_id 3, the spec's peak (the
non-sentinel entry of maximum ADC, here index 0 with ADC 0, carrying the
base's fields) differs from what the scan produces (the zero-initialized
Sample, because the strict comparison against the zero-initialized running
maximum never selects a zero-ADC entry). -/
theorem C5_peak_counterexample :
    (scanSamples { fee_id := 3 } 65535 [0]).2 ≠
      specPeak { fee_id := 3 } 65535 [0] := by
  decide

/-- Claim C5 as amended: the peak produced by the scan is the Sample of
strictly maximal ADC, first occurrence on ties, over the non-sentinel
entries of positive ADC among the (at most 1024) scanned entries, and the
zero-initialized Sample when no such entry exists; for the ADC sequence
[5, 10, 7, 10] the peak has sample index 1 and ADC 10. -/
theorem C5_peak_extraction :
    (∀ (base : Sample) (adc_invalid : ℕ) (adcs : List ℕ),
        (scanSamples base adc_invalid adcs).2 = specPeakPos base adc_invalid adcs) ∧
      (scanSamples {} 65535 [5, 10, 7, 10]).2 = { sample := 1, adc := 10 } :=
  ⟨scanSamples_peak_eq_specPeakPos, by decide⟩

/-- Claim C6: is_signal is true exactly when rms > 0, adc_max is at least
the minimum ADC threshold, the peak's sample index lies in
[sample_min, sample_max), and adc_max strictly exceeds
pedestal + n_sigma * rms; with pedestal 10, rms 2, n_sigma 3, thresholds
0/0/1024, adc_max 15 gives false and adc_max 17 gives true. -/
theorem C6_signal_classification :
    (∀ (min_adc sample_min sample_max_thr : ℕ) (n_sigma pedestal rms : ℚ)
        (s : Sample),
        (classifyWaveform min_adc sample_min sample_max_thr n_sigma pedestal
            rms s).is_signal = true ↔
          (0 < rms ∧ min_adc ≤ s.adc ∧ sample_min ≤ s.sample ∧
            s.sample < sample_max_thr ∧
            pedestal + n_sigma * rms < (s.adc : ℚ))) ∧
      (classifyWaveform 0 0 1024 3 10 2 { sample := 5, adc := 15 }).is_signal
          = false ∧
      (classifyWaveform 0 0 1024 3 10 2 { sample := 5, adc := 17 }).is_signal
          = true := by
  refine ⟨?_, ?_, ?_⟩
  · intro min_adc sample_min sample_max_thr n_sigma pedestal rms s
    simp [classifyWaveform, Waveform.copy_from, and_assoc]
  · simp [classifyWaveform, Waveform.copy_from]
    norm_num
  · simp [classifyWaveform, Waveform.copy_from]
    norm_num

/-- Claim C6 witness: the characterization applied at the boundary input
adc_max 17 of the spec scenario. -/
theorem C6_signal_classification_witness :
    (classifyWaveform 0 0 1024 3 10 2 { sample := 5, adc := 17 }).is_signal
      = true :=
  (C6_signal_classification.1 0 0 1024 3 10 2 { sample := 5, adc := 17 }).mpr
    (by norm_num)

theorem mem_mmInsert {α : Type} (l : List (ℕ × α)) (k : ℕ) (v : α) :
    ∀ x ∈ mmInsert l k v, x = (k, v) ∨ x ∈ l := by
  induction l with
  | nil =>
    intro x hx
    unfold mmInsert at hx
    exact Or.inl (List.mem_singleton.mp hx)
  | cons p rest ih =>
    intro x hx
    unfold mmInsert at hx
    by_cases h : k < p.1
    · rw [if_pos h] at hx
      rcases List.mem_cons.mp hx with h1 | h1
      · exact Or.inl h1
      · exact Or.inr h1
    · rw [if_neg h] at hx
      rcases List.mem_cons.mp hx with h1 | h1
      · exact Or.inr (h1 ▸ List.mem_cons_self p rest)
      · rcases ih x h1 with h2 | h2
        · exact Or.inl h2
        · exact Or.inr (List.mem_cons_of_mem p h2)

theorem mmInsert_sorted {α : Type} (l : List (ℕ × α)) (k : ℕ) (v : α)
    (h : mmSorted l) : mmSorted (mmInsert l k v) := by
  induction l with
  | nil => simp [mmInsert, mmSorted]
  | cons p rest ih =>
    unfold mmSorted at h
    rw [List.pairwise_cons] at h
    obtain ⟨hp, hrest⟩ := h
    unfold mmInsert
    by_cases hk : k < p.1
    · rw [if_pos hk]
      unfold mmSorted
      rw [List.pairwise_cons]
      refine ⟨?_, ?_⟩
      · intro b hb
        rcases List.mem_cons.mp hb with rfl | hb'
        · omega
        · have := hp b hb'
          omega
      · rw [List.pairwise_cons]
        exact ⟨hp, hrest⟩
    · rw [if_neg hk]
      unfold mmSorted
      rw [List.pairwise_cons]
      refine ⟨?_, ih hrest⟩
      intro b hb
      rcases mem_mmInsert rest k v b hb with rfl | hb'
      · simpa using by omega
      · exact hp b hb'

theorem mmInsert_filter {α : Type} (l : List (ℕ × α)) (k : ℕ) (v : α)
    (k' : ℕ) (h : mmSorted l) :
    (mmInsert l k v).filter (fun p => p.1 == k') =
      l.filter (fun p => p.1 == k') ++ if k' = k then [(k, v)] else [] := by
  induction l with
  | nil =>
    by_cases hk : k' = k
    · simp [mmInsert, hk]
    · simp [mmInsert, hk]
      omega
  | cons p rest ih =>
    unfold mmSorted at h
    rw [List.pairwise_cons] at h
    obtain ⟨hp, hrest⟩ := h
    unfold mmInsert
    by_cases hk : k < p.1
    · rw [if_pos hk]
      by_cases hk' : k' = k
      · subst hk'
        have hnil : (p :: rest).filter (fun q => q.1 == k') = [] := by
          rw [List.filter_eq_nil_iff]
          intro q hq
          rcases List.mem_cons.mp hq with rfl | hq'
          · simp
            omega
          · have := hp q hq'
            simp
            omega
        simp [List.filter_cons, hnil]
      · have hne : ¬ ((k, v).1 == k') = true := by
          simp
          omega
        simp [List.filter_cons, hk', hne]
    · rw [if_neg hk]
      rw [List.filter_cons, List.filter_cons, ih hrest]
      by_cases hpk : (p.1 == k') = true
      · simp [hpk]
      · simp [hpk]

theorem mmOfList_invariant {α : Type} (entries : List (ℕ × α)) :
    ∀ m, mmSorted m →
      mmSorted (entries.foldl (fun m e => mmInsert m e.1 e.2) m) ∧
      ∀ k, (entries.foldl (fun m e => mmInsert m e.1 e.2) m).filter
          (fun p => p.1 == k) =
        m.filter (fun p => p.1 == k) ++ entries.filter (fun p => p.1 == k) := by
  induction entries with
  | nil =>
    intro m hm
    exact ⟨hm, fun k => by simp⟩
  | cons e rest ih =>
    intro m hm
    have hm' := mmInsert_sorted m e.1 e.2 hm
    obtain ⟨hs, hf⟩ := ih (mmInsert m e.1 e.2) hm'
    refine ⟨hs, fun k => ?_⟩
    rw [List.foldl_cons, hf k, mmInsert_filter m e.1 e.2 k hm]
    by_cases hk : k = e.1
    · simp [List.filter_cons, hk, List.append_assoc]
    · have : ¬ (e.1 == k) = true := by
        simp
        omega
      simp [List.filter_cons, hk, this]

/-- Claim C7: the aggregated sample and waveform multimaps are sorted by
lvl1 BCO in ascending order, and for each key the records carrying that key
appear in their insertion order (the filtered subsequence equals the
insertion-order subsequence). -/
theorem C7_aggregation_sorted_stable :
    (∀ entries : List (ℕ × Sample),
        mmSorted (mmOfList entries) ∧
          ∀ k, (mmOfList entries).filter (fun p => p.1 == k) =
            entries.filter (fun p => p.1 == k)) ∧
      (∀ entries : List (ℕ × Waveform),
        mmSorted (mmOfList entries) ∧
          ∀ k, (mmOfList entries).filter (fun p => p.1 == k) =
            entries.filter (fun p => p.1 == k)) := by
  constructor <;>
  · intro entries
    obtain ⟨hs, hf⟩ := mmOfList_invariant entries [] (by simp [mmSorted])
    exact ⟨hs, fun k => by simpa using hf k⟩

theorem enumFrom_filter_length (f : ℕ → Bool) (l : List ℕ) :
    ∀ n, ((List.enumFrom n l).filter (fun p => f p.2)).length =
      (l.filter f).length := by
  induction l with
  | nil => intro n; rfl
  | cons a rest ih =>
    intro n
    by_cases h : f a = true <;>
      simp [List.enumFrom, List.filter_cons, h, ih]

theorem scanSamples_length (base : Sample) (inv : ℕ) (adcs : List ℕ) :
    (scanSamples base inv adcs).1.length =
      ((adcs.take 1024).filter (fun a => a != inv)).length := by
  rw [scanSamples, scanSamplesAux_list, List.length_map]
  exact enumFrom_filter_length (fun a => a != inv) (adcs.take 1024) 0

theorem scanSamples_lvl1 (base : Sample) (inv : ℕ) (adcs : List ℕ) :
    ∀ s ∈ (scanSamples base inv adcs).1, s.lvl1_bco = base.lvl1_bco := by
  intro s hs
  rw [scanSamples, scanSamplesAux_list] at hs
  obtain ⟨p, hp, rfl⟩ := List.mem_map.mp hs
  rfl

/-- Claim C4: when an incoming waveform's fee BCO is outside tolerance of
the FEE's cached pair and that FEE's candidate queue is empty, the match
yields no global timestamp, each valid ADC entry is still emitted into the
event's sample aggregation (keyed by the sentinel 0, with lvl1_bco = 0)
rather than dropped, and the FEE's cached MatchState is left unchanged. -/
theorem C4_orphan_retention (nchannels packet_id : ℕ) (mainList : List ℕ)
    (st : PacketState) (w : WaveformRow)
    (hch : w.channel < nchannels)
    (hout : max_fee_bco_diff ≤
      get_bco_diff w.fee_bco ((lookupA st.fee_map w.fee_id).getD ⟨0, 0⟩).first)
    (hq : (lookupA st.bco_list_map w.fee_id).getD mainList = []) :
    (processWaveform nchannels packet_id mainList st w).fee_map = st.fee_map ∧
      (processWaveform nchannels packet_id mainList st w).samples.length =
        st.samples.length +
          ((w.adcs.take 1024).filter (fun a => a != adc_invalid)).length ∧
      ∀ p ∈ (processWaveform nchannels packet_id mainList st w).samples,
        p ∈ st.samples ∨ (p.1 = 0 ∧ p.2.lvl1_bco = 0) := by
  have hbranch : processWaveform nchannels packet_id mainList st w =
      { st with
        bco_list_map := setA st.bco_list_map w.fee_id [],
        orphans := (reportOrphan st.orphans (w.fee_id, w.fee_bco)).2,
        reportLog := st.reportLog ++
          [(reportOrphan st.orphans (w.fee_id, w.fee_bco)).1],
        bco_map := incrCount st.bco_map 0,
        samples := st.samples ++
          (scanSamples (mkBase packet_id w 0) adc_invalid w.adcs).1.map
            (fun s => (0, s)) } := by
    simp only [processWaveform]
    rw [if_neg (by omega), if_neg (by omega), hq]
  refine ⟨by rw [hbranch], ?_, ?_⟩
  · rw [hbranch]
    simp [scanSamples_length]
  · intro p hp
    rw [hbranch] at hp
    simp only [List.mem_append] at hp
    rcases hp with hp | hp
    · exact Or.inl hp
    · obtain ⟨s, hs, rfl⟩ := List.mem_map.mp hp
      refine Or.inr ⟨rfl, ?_⟩
      have := scanSamples_lvl1 (mkBase packet_id w 0) adc_invalid w.adcs s hs
      simpa [mkBase] using this

/-- Claim C4 witness: FEE 5, empty candidate list, fee BCO 55 against the
default cached pair, ADC array [3, sentinel, 4]: both valid entries are
kept with lvl1 BCO 0 and the cache is untouched. -/
theorem C4_orphan_retention_witness :
    (0 : ℕ) < 256 ∧
      max_fee_bco_diff ≤ get_bco_diff 55
        ((lookupA ([] : List (ℕ × MatchPair)) 5).getD ⟨0, 0⟩).first ∧
      ((lookupA ([] : List (ℕ × List ℕ)) 5).getD ([] : List ℕ) = []) ∧
      ((processWaveform 256 0 []
          ⟨[], [], [], [], [], []⟩ ⟨5, 0, 55, [3, 65535, 4]⟩).fee_map = [] ∧
        (processWaveform 256 0 []
          ⟨[], [], [], [], [], []⟩ ⟨5, 0, 55, [3, 65535, 4]⟩).samples.length =
          ([] : List (ℕ × Sample)).length +
            (([3, 65535, 4].take 1024).filter
              (fun a => a != adc_invalid)).length ∧
        ∀ p ∈ (processWaveform 256 0 []
            ⟨[], [], [], [], [], []⟩ ⟨5, 0, 55, [3, 65535, 4]⟩).samples,
          p ∈ ([] : List (ℕ × Sample)) ∨ (p.1 = 0 ∧ p.2.lvl1_bco = 0)) :=
  ⟨by decide, by decide, by decide,
    C4_orphan_retention 256 0 [] ⟨[], [], [], [], [], []⟩
      ⟨5, 0, 55, [3, 65535, 4]⟩ (by decide) (by decide) (by decide)⟩

/-- Claim C8 counterexample: the orphan set is a local of the per-packet
block (source line 210), so the deduplication does not persist: one event
with two packets, each containing the same unmatched (fee 5, fee_bco 55)
waveform with no tagged lvl1 BCO, yields report results [true, true],
where the claim requires the second identical report to return false. -/
theorem C8_orphan_dedup_counterexample :
    (processEvent 256 ⟨[], []⟩
      [{ packet_id := 0, lvl1_bcos := [],
         waveforms := [{ fee_id := 5, channel := 0, fee_bco := 55 }] },
       { packet_id := 0, lvl1_bcos := [],
         waveforms := [{ fee_id := 5, channel := 0, fee_bco := 55 }] }]).2.2 =
      [true, true] := by
  decide

/-- Claim C8 as amended: the orphan tracker is a set of (fee_id, fee_bco)
pairs created afresh for each packet of each event; within one packet's
processing, report returns true exactly on the first occurrence of a pair
and false on any repetition, and the deduplication does not extend across
packets (the counterexample shows two packets both reporting true). -/
theorem C8_orphan_dedup :
    (∀ (s : List (ℕ × ℕ)) (p : ℕ × ℕ),
        (reportOrphan s p).1 = true ↔ p ∉ s) ∧
      (∀ (s : List (ℕ × ℕ)) (p : ℕ × ℕ),
        (reportOrphan (reportOrphan s p).2 p).1 = false) ∧
      (processEvent 256 ⟨[], []⟩
        [{ packet_id := 0, lvl1_bcos := [],
           waveforms := [{ fee_id := 5, channel := 0, fee_bco := 55 },
             { fee_id := 5, channel := 0, fee_bco := 55 }] }]).2.2 =
        [true, false] := by
  refine ⟨?_, ?_, by decide⟩
  · intro s p
    unfold reportOrphan
    by_cases h : p ∈ s <;> simp [h]
  · intro s p
    unfold reportOrphan
    by_cases h : p ∈ s <;> simp [h]

/-- Claim C8 amended witness: the first-occurrence characterization applied
to the empty orphan set and the pair (5, 55). -/
theorem C8_orphan_dedup_witness :
    (reportOrphan [] (5, 55)).1 = true :=
  (C8_orphan_dedup.1 [] (5, 55)).mpr (by decide)

theorem histTotal_incrCount (m : List (ℕ × ℕ)) (k : ℕ) :
    histTotal (incrCount m k) = histTotal m + 1 := by
  induction m with
  | nil => rfl
  | cons p rest ih =>
    unfold incrCount
    by_cases h : p.1 = k
    · simp [histTotal, h]
      omega
    · simp only [if_neg h]
      simp [histTotal] at ih ⊢
      omega

theorem histTotal_processWaveform (nchannels packet_id : ℕ)
    (mainList : List ℕ) (st : PacketState) (w : WaveformRow) :
    histTotal (processWaveform nchannels packet_id mainList st w).bco_map =
      histTotal st.bco_map + (if w.channel < nchannels then 1 else 0) := by
  simp only [processWaveform]
  by_cases hch : nchannels ≤ w.channel
  · rw [if_pos hch, if_neg (show ¬ w.channel < nchannels by omega)]
    simp
  · rw [if_neg hch, if_pos (show w.channel < nchannels by omega)]
    by_cases htol : get_bco_diff w.fee_bco
        ((lookupA st.fee_map w.fee_id).getD ⟨0, 0⟩).first < max_fee_bco_diff
    · rw [if_pos htol]
      simp [histTotal_incrCount]
    · rw [if_neg htol]
      split
      next hq => simp [histTotal_incrCount]
      next b rest hq => simp [histTotal_incrCount]

theorem histTotal_foldl_waveforms (nchannels packet_id : ℕ)
    (mainList : List ℕ) (ws : List WaveformRow) :
    ∀ st : PacketState,
      histTotal ((ws.foldl (processWaveform nchannels packet_id mainList)
          st)).bco_map =
        histTotal st.bco_map +
          (ws.filter (fun w => decide (w.channel < nchannels))).length := by
  induction ws with
  | nil => intro st; simp
  | cons w ws ih =>
    intro st
    rw [List.foldl_cons, ih, histTotal_processWaveform]
    by_cases h : w.channel < nchannels
    · simp [List.filter_cons, h]
      omega
    · simp [List.filter_cons, h]

theorem histTotal_foldl_packets (nchannels : ℕ) (pkts : List PacketData) :
    ∀ acc : EngineState × List (ℕ × Sample) × List Bool,
      histTotal ((pkts.foldl (processPacket nchannels) acc)).1.bco_map =
        histTotal acc.1.bco_map + countValidWaveforms nchannels pkts := by
  induction pkts with
  | nil => intro acc; simp [countValidWaveforms]
  | cons pkt pkts ih =>
    intro acc
    rw [List.foldl_cons, ih]
    have hpkt : histTotal (processPacket nchannels acc pkt).1.bco_map =
        histTotal acc.1.bco_map +
          (pkt.waveforms.filter
            (fun w => decide (w.channel < nchannels))).length := by
      simp only [processPacket]
      exact histTotal_foldl_waveforms nchannels pkt.packet_id pkt.lvl1_bcos
        pkt.waveforms _
    rw [hpkt]
    simp [countValidWaveforms]
    omega

/-- Claim C9 counterexample: one event, one packet with lvl1 BCO list
[1000] and a single waveform carrying two valid ADC samples; two Sample
records keyed 1000 are aggregated, but the histogram entry for 1000 is 1,
not 2: the histogram is incremented once per waveform, not once per
sample. -/
theorem C9_histogram_counterexample :
    lookupA (processEvent 256 ⟨[], []⟩
        [⟨0, [1000], [⟨5, 0, 55, [3, 4]⟩]⟩]).1.bco_map 1000 = some 1 ∧
      ((processEvent 256 ⟨[], []⟩
        [⟨0, [1000], [⟨5, 0, 55, [3, 4]⟩]⟩]).2.1.filter
          (fun p => p.1 == 1000)).length = 2 ∧
      (1 : ℕ) ≠ 2 := by
  refine ⟨by decide, by decide, by decide⟩

/-- Claim C9 as amended: the run-level BCO histogram receives exactly one
increment per waveform row that passes the channel bound check (whether or
not any of its ADC entries is valid or becomes the peak, and including
orphaned rows under the sentinel key 0), and is never reset mid-run: over
any sequence of events the total count grows by exactly the number of such
rows. -/
theorem C9_histogram_per_waveform (nchannels : ℕ) (engine : EngineState)
    (events : List (List PacketData)) :
    histTotal (processRun nchannels engine events).bco_map =
      histTotal engine.bco_map + countValidWaveformsRun nchannels events := by
  induction events generalizing engine with
  | nil => simp [processRun, countValidWaveformsRun]
  | cons pkts events ih =>
    have hstep : histTotal (processEvent nchannels engine pkts).1.bco_map =
        histTotal engine.bco_map + countValidWaveforms nchannels pkts :=
      histTotal_foldl_packets nchannels pkts (engine, [], [])
    simp only [processRun, List.foldl_cons] at ih ⊢
    rw [ih, hstep]
    simp [countValidWaveformsRun]
    omega

/-- Claim C10: a FEE id never successfully matched reads a zero-initialized
cached pair (0, 0) from `m_fee_bco_matching_map`; an incoming fee BCO below
the tolerance 10 therefore falls in tolerance of this default cache, is
assigned the sentinel global timestamp 0, and consumes no candidate queue
entry even when the candidate list is non-empty. -/
theorem C10_default_cache (nchannels packet_id : ℕ) (mainList : List ℕ)
    (st : PacketState) (w : WaveformRow)
    (hch : w.channel < nchannels)
    (habs : lookupA st.fee_map w.fee_id = none)
    (hsmall : w.fee_bco < max_fee_bco_diff) :
    (lookupA st.fee_map w.fee_id).getD ⟨0, 0⟩ = ⟨0, 0⟩ ∧
      (processWaveform nchannels packet_id mainList st w).fee_map =
        st.fee_map ∧
      (processWaveform nchannels packet_id mainList st w).bco_list_map =
        st.bco_list_map ∧
      ∀ p ∈ (processWaveform nchannels packet_id mainList st w).samples,
        p ∈ st.samples ∨ (p.1 = 0 ∧ p.2.lvl1_bco = 0) := by
  have hdiff : get_bco_diff w.fee_bco
      ((lookupA st.fee_map w.fee_id).getD ⟨0, 0⟩).first < max_fee_bco_diff := by
    rw [habs]
    unfold get_bco_diff
    simpa using hsmall
  have hbranch : processWaveform nchannels packet_id mainList st w =
      { st with
        bco_map := incrCount st.bco_map
          ((lookupA st.fee_map w.fee_id).getD ⟨0, 0⟩).second,
        samples := st.samples ++
          (scanSamples (mkBase packet_id w
              ((lookupA st.fee_map w.fee_id).getD ⟨0, 0⟩).second) adc_invalid
            w.adcs).1.map
            (fun s => (((lookupA st.fee_map w.fee_id).getD ⟨0, 0⟩).second, s)) } := by
    simp only [processWaveform]
    rw [if_neg (by omega), if_pos hdiff]
  refine ⟨by rw [habs]; rfl, by rw [hbranch], by rw [hbranch], ?_⟩
  intro p hp
  rw [hbranch] at hp
  simp only [List.mem_append] at hp
  rcases hp with hp | hp
  · exact Or.inl hp
  · obtain ⟨s, hs, rfl⟩ := List.mem_map.mp hp
    have hz : ((lookupA st.fee_map w.fee_id).getD ⟨0, 0⟩).second = 0 := by
      simp [habs]
    refine Or.inr ⟨by rw [hz], ?_⟩
    have := scanSamples_lvl1 (mkBase packet_id w
      ((lookupA st.fee_map w.fee_id).getD ⟨0, 0⟩).second) adc_invalid w.adcs s hs
    rw [this]
    simp [mkBase, hz]

/-- Claim C10 witness: FEE 5 absent from the matching map, fee BCO 3 below
tolerance, candidate list [1000] untouched and sample assigned the sentinel
key 0. -/
theorem C10_default_cache_witness :
    (0 : ℕ) < 256 ∧
      lookupA ([] : List (ℕ × MatchPair)) 5 = none ∧
      (3 : ℕ) < max_fee_bco_diff ∧
      ((lookupA ([] : List (ℕ × MatchPair)) 5).getD ⟨0, 0⟩ = ⟨0, 0⟩ ∧
        (processWaveform 256 0 [1000]
          ⟨[], [(5, [1000])], [], [], [], []⟩ ⟨5, 0, 3, [7]⟩).fee_map = [] ∧
        (processWaveform 256 0 [1000]
          ⟨[], [(5, [1000])], [], [], [], []⟩ ⟨5, 0, 3, [7]⟩).bco_list_map =
          [(5, [1000])] ∧
        ∀ p ∈ (processWaveform 256 0 [1000]
            ⟨[], [(5, [1000])], [], [], [], []⟩ ⟨5, 0, 3, [7]⟩).samples,
          p ∈ ([] : List (ℕ × Sample)) ∨ (p.1 = 0 ∧ p.2.lvl1_bco = 0)) :=
  ⟨by decide, by decide, by decide,
    C10_default_cache 256 0 [1000] ⟨[], [(5, [1000])], [], [], [], []⟩
      ⟨5, 0, 3, [7]⟩ (by decide) (by decide) (by decide)⟩

end MicromegasEval
